import Mathlib

/-!
Verification development for the reAItor backend.

The definitions below are a shallow embedding of the Python source:

* `backend/services/scraper_orchestrator.py` — address normalization,
  deduplication, and the multi-platform candidate collector;
* `backend/api/search.py` — the background search pipeline
  (`run_search_pipeline`), session state, and the status projection;
* `backend/services/recommendation_service.py` — feedback recording,
  preference-weight learning, personalized scoring, ranking, and
  next-listing selection.

Python `str` values subjected to character-level operations are modelled as
`List Char`; Python floats are modelled as exact rationals (`ℚ`), except the
Pearson-correlation computation, which needs square roots and is modelled
over `ℝ`.  Python exceptions raised by external collaborators are modelled
as `Option`/`Except` results.
-/

/-! ### Python string primitives (on `List Char`) -/

/-- Python `str.lower()` on a character list. -/
def lowerChars (s : List Char) : List Char :=
  s.map Char.toLower

/-- Python `str.strip()`: drop whitespace from both ends. -/
def trimChars (s : List Char) : List Char :=
  ((s.dropWhile Char.isWhitespace).reverse.dropWhile Char.isWhitespace).reverse

/-- Scanning loop of Python `str.replace(pat, rep)` with pattern `p :: ps`,
structurally recursive on a fuel bound (any fuel ≥ the length of the string
gives the replacement's exact semantics: each step consumes at least one
character). -/
def replaceCharsGo (p : Char) (ps rep : List Char) : ℕ → List Char → List Char
  | 0, s => s
  | _ + 1, [] => []
  | fuel + 1, c :: rest =>
    if (p :: ps).isPrefixOf (c :: rest) then
      rep ++ replaceCharsGo p ps rep fuel (rest.drop ps.length)
    else
      c :: replaceCharsGo p ps rep fuel rest

/-- Python `str.replace(pat, rep)` with a non-empty pattern `p :: ps`:
replace all non-overlapping occurrences, scanning left to right. -/
def replaceChars (p : Char) (ps rep s : List Char) : List Char :=
  replaceCharsGo p ps rep s.length s

/-- Python `str.split()` (no separator): split on whitespace runs,
discarding empty pieces. -/
def splitWsChars (s : List Char) : List (List Char) :=
  (s.splitOnP Char.isWhitespace).filter (· ≠ [])

/-- Python `" ".join(s.split())`: collapse internal whitespace runs to a
single space (and drop leading/trailing whitespace). -/
def collapseWsChars (s : List Char) : List Char :=
  List.intercalate [' '] (splitWsChars s)

/-! ### Data model (`backend/models/schemas.py`) -/

/-- `models.schemas.Listing`. -/
structure Listing where
  id : String
  source : String
  url : String
  address : String
  city : String
  state : String
  zip_code : String
  price : ℤ
  bedrooms : ℤ
  bathrooms : ℚ
  sqft : ℤ
  property_type : String
  description : String
  images : List String
  listing_date : Option String := none
  days_on_market : Option ℤ := none
deriving DecidableEq, Repr

/-- `models.schemas.EvaluationReport`. -/
structure EvaluationReport where
  listing_id : String
  preference_match_score : ℚ
  crime_score : Option ℚ := none
  school_score : Option ℚ := none
  walkability_score : Option ℚ := none
  affordability_score : Option ℚ := none
  similar_evaluations : List String := []
  strengths : List String
  concerns : List String
  additional_notes : Option String := none
deriving DecidableEq, Repr

/-- `models.schemas.ArgumentReport`. -/
structure ArgumentReport where
  listing_id : String
  pro_arguments : List String
  con_arguments : List String
deriving DecidableEq, Repr

/-- `models.schemas.FinalReport`. -/
structure FinalReport where
  listing : Listing
  evaluation : EvaluationReport
  arguments : ArgumentReport
  final_score : ℚ
  executive_summary : String
  recommendation : String
deriving DecidableEq, Repr

/-- `models.schemas.UserPreferences` (all fields optional). -/
structure UserPreferences where
  price_min : Option ℤ := none
  price_max : Option ℤ := none
  bedrooms_min : Option ℤ := none
  bedrooms_max : Option ℤ := none
  location : Option String := none
  property_types : Option (List String) := none
deriving DecidableEq, Repr

/-! ### Candidate Collector (`backend/services/scraper_orchestrator.py`) -/

/-- `ScraperOrchestrator._normalize_address`: lower-case, strip, expand
street-type words to their short forms, drop periods and commas, collapse
whitespace — in exactly the source's order of operations. -/
def normalizeAddress (address : String) : List Char :=
  let n := trimChars (lowerChars address.toList)
  let n := replaceChars 's' "treet".toList "st".toList n
  let n := replaceChars 'a' "venue".toList "ave".toList n
  let n := replaceChars 'b' "oulevard".toList "blvd".toList n
  let n := replaceChars 'd' "rive".toList "dr".toList n
  let n := replaceChars 'r' "oad".toList "rd".toList n
  let n := replaceChars '.' [] [] n
  let n := replaceChars ',' [] [] n
  collapseWsChars n

/-- Loop body of `ScraperOrchestrator._deduplicate_listings`: `seen` is the
set of normalized addresses of the listings kept so far. -/
def dedupGo (seen : List (List Char)) : List Listing → List Listing
  | [] => []
  | l :: rest =>
    if normalizeAddress l.address ∈ seen then dedupGo seen rest
    else l :: dedupGo (normalizeAddress l.address :: seen) rest

/-- `ScraperOrchestrator._deduplicate_listings`. -/
def deduplicateListings (listings : List Listing) : List Listing :=
  dedupGo [] listings

/-- Modelled from the spec: keep a listing iff no earlier listing of the
full input (in source iteration order) has the same normalized address —
"the first one encountered is kept and the rest dropped".  `prev` holds the
normalized addresses of all listings already passed, kept or not. -/
def keepFirstGo (prev : List (List Char)) : List Listing → List Listing
  | [] => []
  | l :: rest =>
    if normalizeAddress l.address ∈ prev then
      keepFirstGo (prev ++ [normalizeAddress l.address]) rest
    else
      l :: keepFirstGo (prev ++ [normalizeAddress l.address]) rest

/-- Modelled from the spec: first-occurrence-wins deduplication. -/
def keepFirstOfEachAddress (listings : List Listing) : List Listing :=
  keepFirstGo [] listings

/-- `ScraperOrchestrator.search_all_platforms` after the `asyncio.gather`
call: `results` holds, per scraper, either its listing list or the
exception it raised; failed scrapers are skipped, the rest concatenated in
scraper order, and the concatenation deduplicated. -/
def searchAllPlatforms (results : List (Except String (List Listing))) : List Listing :=
  let all_listings := results.foldl
    (fun acc r =>
      match r with
      | .ok ls => acc ++ ls
      | .error _ => acc)
    []
  deduplicateListings all_listings

/-! ### Recommendation service, rational part
(`backend/services/recommendation_service.py`) -/

/-- Feature dictionaries and learned weight dictionaries are string-keyed
maps; Python dict iteration order is insertion order, so an association
list is the faithful model. -/
abbrev FeatureMap := List (String × ℚ)

/-- `RecommendationService._extract_features`, in the source's insertion
order.  Python's `x or d` yields `d` also when `x` is `0`/`0.0` (falsy),
which the `some 0` branches reproduce. -/
def extractFeatures (listing : Listing) (final_report : FinalReport) : FeatureMap :=
  [ ("price", (listing.price : ℚ) / 1000000),
    ("bedrooms", (listing.bedrooms : ℚ)),
    ("bathrooms", listing.bathrooms),
    ("sqft", (listing.sqft : ℚ) / 1000),
    ("days_on_market",
      ((match listing.days_on_market with
        | some d => if d = 0 then 30 else d
        | none => 30 : ℤ) : ℚ) / 100),
    ("preference_match", final_report.evaluation.preference_match_score),
    ("crime_score",
      match final_report.evaluation.crime_score with
      | some c => if c = 0 then 5 else c
      | none => 5),
    ("school_score",
      match final_report.evaluation.school_score with
      | some c => if c = 0 then 5 else c
      | none => 5),
    ("walkability_score",
      match final_report.evaluation.walkability_score with
      | some c => if c = 0 then 5 else c
      | none => 5),
    ("affordability_score",
      match final_report.evaluation.affordability_score with
      | some c => if c = 0 then 5 else c
      | none => 5),
    ("final_score", final_report.final_score),
    ("pro_count", (final_report.arguments.pro_arguments.length : ℚ)),
    ("con_count", (final_report.arguments.con_arguments.length : ℚ)),
    ("argument_balance",
      (final_report.arguments.pro_arguments.length : ℚ)
        - (final_report.arguments.con_arguments.length : ℚ)),
    ("is_house", if lowerChars listing.property_type.toList = "house".toList then 1 else 0),
    ("is_condo", if lowerChars listing.property_type.toList = "condo".toList then 1 else 0),
    ("is_townhouse", if lowerChars listing.property_type.toList = "townhouse".toList then 1 else 0) ]

/-- `RecommendationService._calculate_personalized_score`: 70 % base
`final_score` (dict-get with default 5.0), 30 % of `5 + weighted feature
sum`, the result clamped to `[0, 10]`. -/
def calcPersonalizedScore (features weights : FeatureMap) : ℚ :=
  let base_score := (features.lookup "final_score").getD 5
  let weighted_sum := features.foldl
    (fun acc fv =>
      match weights.lookup fv.1 with
      | some w => acc + fv.2 * w
      | none => acc)
    0
  let personalized_score := 7/10 * base_score + 3/10 * (5 + weighted_sum)
  max 0 (min 10 personalized_score)

/-- Modelled from the spec's words for the personalized score exactly as the
spec states it: `0.7 * final_score + 0.3 * clamp(5 + Σ weight[f]*value[f], 0, 10)`,
then the whole expression clamped to `[0, 10]` (note the INNER clamp on the
learned adjustment). -/
def specClaimedPersonalizedScore (features weights : FeatureMap) : ℚ :=
  let final_score := (features.lookup "final_score").getD 5
  let adjustment := (features.map (fun fv => ((weights.lookup fv.1).getD 0) * fv.2)).sum
  max 0 (min 10 (7/10 * final_score + 3/10 * (max 0 (min 10 (5 + adjustment)))))

/-- Modelled from the spec's words as amended: the learned adjustment
`5 + Σ weight[f]*value[f]` enters the blend unclamped; only the blended
result is clamped to `[0, 10]`. -/
def specAmendedPersonalizedScore (features weights : FeatureMap) : ℚ :=
  let final_score := (features.lookup "final_score").getD 5
  let adjustment := (features.map (fun fv => ((weights.lookup fv.1).getD 0) * fv.2)).sum
  max 0 (min 10 (7/10 * final_score + 3/10 * (5 + adjustment)))

/-- Comparison used by `sorted(..., key=lambda x: x.final_score, reverse=True)`
and `final_reports.sort(...)`: descending by `final_score`.  A stable sort
with this comparison is exactly Python's stable sort with that key. -/
def finalScoreDescLe (a b : FinalReport) : Bool :=
  decide (b.final_score ≤ a.final_score)

/-- Comparison for the `(personalized_score, report)` pairs in
`get_ranked_listings`: descending by the score component. -/
def scoredDescLe (a b : ℚ × FinalReport) : Bool :=
  decide (b.1 ≤ a.1)

/-- `RecommendationService.get_ranked_listings`, with the session's stored
weights already fetched (`None`, or a possibly-empty dict — Python's
`if not weights` treats both `None` and `{}` as "no learning data"). -/
def getRankedListings (weights : Option FeatureMap) (listings : List FinalReport) :
    List FinalReport :=
  match weights with
  | none => listings.mergeSort finalScoreDescLe
  | some w =>
    if w.isEmpty then listings.mergeSort finalScoreDescLe
    else
      let scored_listings := listings.map
        (fun report => (calcPersonalizedScore (extractFeatures report.listing report) w, report))
      (scored_listings.mergeSort scoredDescLe).map Prod.snd

/-- `RecommendationService.get_next_listing`. -/
def getNextListing (weights : Option FeatureMap) (available_listings : List FinalReport)
    (seen_listing_ids : List String) : Option FinalReport :=
  let unseen_listings := available_listings.filter
    (fun r => decide (r.listing.id ∉ seen_listing_ids))
  if unseen_listings.isEmpty then none
  else (getRankedListings weights unseen_listings).head?

/-! ### Feedback store (`RecommendationService.record_feedback`) -/

/-- The `action` literal of `models.schemas.FeedbackRequest`. -/
inductive SwipeAction
  | like
  | dislike
deriving DecidableEq, Repr

/-- One stored feedback record: the fields of the ChromaDB document /
metadata that the service later reads back. -/
structure FeedbackEvent where
  session_id : String
  listing_id : String
  action : SwipeAction
  features : FeatureMap
deriving DecidableEq, Repr

/-- A ChromaDB collection keyed by string ids, in insertion order. -/
abbrev KeyedStore (β : Type) := List (String × β)

/-- ChromaDB `upsert` with a single id: replace the record with that id in
place if present, otherwise append. -/
def upsertRecord {β : Type} (k : String) (v : β) : KeyedStore β → KeyedStore β
  | [] => [(k, v)]
  | (k', v') :: rest => if k' = k then (k, v) :: rest else (k', v') :: upsertRecord k v rest

/-- The document id used by `record_feedback`:
`f"{feedback.session_id}_{feedback.listing_id}"`. -/
def feedbackId (session_id listing_id : String) : String :=
  session_id ++ "_" ++ listing_id

/-- The store mutation of `RecommendationService.record_feedback` on the
`user_feedback` collection (the subsequent `_update_preference_weights`
call touches only the separate weights collection, modelled below). -/
def recordFeedback (store : KeyedStore FeedbackEvent) (e : FeedbackEvent) :
    KeyedStore FeedbackEvent :=
  upsertRecord (feedbackId e.session_id e.listing_id) e store

/-! ### Weight learning (`_update_preference_weights`,
`_calculate_feature_weights`), over `ℝ` because Pearson correlation
divides by square roots of variances. -/

/-- `np.mean` (implicit in the deviations): arithmetic mean. -/
noncomputable def meanR (l : List ℝ) : ℝ :=
  l.sum / l.length

/-- Population variance — `np.std(xs)**2` (numpy `std` defaults to
`ddof=0`). -/
noncomputable def popVariance (xs : List ℝ) : ℝ :=
  ((xs.map (fun x => (x - meanR xs) ^ 2)).sum) / xs.length

/-- Population covariance (the spec-side Pearson normalization). -/
noncomputable def popCov (xs ys : List ℝ) : ℝ :=
  (((xs.zip ys).map (fun q => (q.1 - meanR xs) * (q.2 - meanR ys))).sum) / xs.length

/-- Sample covariance — `np.cov` inside `np.corrcoef` defaults to
`ddof=1`, dividing by `n - 1`. -/
noncomputable def sampleCov (xs ys : List ℝ) : ℝ :=
  (((xs.zip ys).map (fun q => (q.1 - meanR xs) * (q.2 - meanR ys))).sum)
    / (xs.length - 1)

/-- Per-feature loop body of `_calculate_feature_weights`:
`np.std == 0` guard, then `np.corrcoef(feature_values, y)[0, 1]` with the
`np.isnan` fallback.  `corrcoef[0,1]` is `cov01 / (sqrt cov00 * sqrt cov11)`;
with `std(xs) ≠ 0` it is NaN exactly when `cov11 = 0` (the labels are exact
±1.0 floats, so a constant label column gives exactly `0.0 / 0.0`), which
the middle branch reproduces. -/
noncomputable def calcFeatureWeight (xs ys : List ℝ) : ℝ :=
  if Real.sqrt (popVariance xs) = 0 then 0
  else if sampleCov ys ys = 0 then 0
  else sampleCov xs ys / (Real.sqrt (sampleCov xs xs) * Real.sqrt (sampleCov ys ys))

/-- `_calculate_feature_weights`: feature names from the first feature
vector; one weight per feature name; the column of a feature is its value
in each event's snapshot. -/
noncomputable def calcFeatureWeights (feature_vectors : List FeatureMap) (labels : List ℝ) :
    List (String × ℝ) :=
  match feature_vectors with
  | [] => []
  | fv0 :: _ =>
    let feature_names := fv0.map Prod.fst
    feature_names.map (fun fname =>
      (fname,
        calcFeatureWeight
          (feature_vectors.map (fun fv => (((fv.lookup fname).getD 0 : ℚ) : ℝ)))
          labels))

/-- The label of one feedback event: `1.0 if action == 'like' else -1.0`. -/
def labelOf (e : FeedbackEvent) : ℝ :=
  if e.action = .like then 1 else -1

/-- `RecommendationService._update_preference_weights`, with the session's
event list (the result of the `feedback_collection.get` filter) passed in:
fewer than 2 events → no-op; otherwise the freshly computed weight map is
upserted under the session id, replacing any prior value. -/
noncomputable def updatePreferenceWeights (wstore : KeyedStore (List (String × ℝ)))
    (session_id : String) (events : List FeedbackEvent) :
    KeyedStore (List (String × ℝ)) :=
  if events.length < 2 then wstore
  else upsertRecord session_id
    (calcFeatureWeights (events.map (·.features)) (events.map labelOf)) wstore

/-- Modelled from the spec's words: the Pearson correlation between a
feature's values and the labels; "a feature with zero variance across
events yields weight 0; an undefined correlation is treated as 0" (the
correlation is undefined exactly when either variance vanishes). -/
noncomputable def pearsonWeightSpec (xs ys : List ℝ) : ℝ :=
  if popVariance xs = 0 ∨ popVariance ys = 0 then 0
  else popCov xs ys / (Real.sqrt (popVariance xs) * Real.sqrt (popVariance ys))

/-! ### Search pipeline (`backend/api/search.py`) -/

/-- The `status` literal of a search session. -/
inductive SessionStatus
  | pending
  | scraping
  | evaluating
  | complete
  | error
deriving DecidableEq, Repr

/-- Forward position of a status in the
`pending → scraping → evaluating → complete` machine, with the terminal
`error` jump reachable from (and above) every state. -/
def statusRank : SessionStatus → ℕ
  | .pending => 0
  | .scraping => 1
  | .evaluating => 2
  | .complete => 3
  | .error => 4

/-- The mutable per-session dict in `search_sessions` (collection keys that
`start_search` does not pre-populate are read back with `.get(…, [])`, so
initializing them to `[]` is observationally identical). -/
structure SearchSession where
  status : SessionStatus
  message : String
  progress : ℚ
  listings : List Listing := []
  evaluated_listings : List (Listing × EvaluationReport) := []
  argued_listings : List (Listing × EvaluationReport × ArgumentReport) := []
  final_reports : List FinalReport := []
deriving DecidableEq, Repr

/-- The session dict as `start_search` initializes it. -/
def initSearchSession : SearchSession :=
  { status := .pending, message := "Initializing search...", progress := 0 }

/-- `models.schemas.SearchStatusResponse`. -/
structure SearchStatusResponse where
  status : SessionStatus
  progress : ℚ
  message : String
  listings_found : ℕ
  listings_evaluated : ℕ
deriving DecidableEq, Repr

/-- Body of the `get_search_status` endpoint for a known session id: a pure
projection of the stored session fields. -/
def getSearchStatus (session : SearchSession) : SearchStatusResponse :=
  { status := session.status,
    progress := session.progress,
    message := session.message,
    listings_found := session.listings.length,
    listings_evaluated := session.evaluated_listings.length }

/-- One single-field assignment to the session dict performed by
`run_search_pipeline`. -/
inductive SessionWrite
  | setStatus (s : SessionStatus)
  | setMessage (m : String)
  | setProgress (p : ℚ)
  | setListings (ls : List Listing)
  | setEvaluated (ls : List (Listing × EvaluationReport))
  | setArgued (ls : List (Listing × EvaluationReport × ArgumentReport))
  | setFinalReports (rs : List FinalReport)
deriving Repr

/-- Effect of one assignment on the session. -/
def applyWrite (s : SearchSession) : SessionWrite → SearchSession
  | .setStatus st => { s with status := st }
  | .setMessage m => { s with message := m }
  | .setProgress p => { s with progress := p }
  | .setListings ls => { s with listings := ls }
  | .setEvaluated ls => { s with evaluated_listings := ls }
  | .setArgued ls => { s with argued_listings := ls }
  | .setFinalReports rs => { s with final_reports := rs }

/-- The progress value carried by a write, if it is a progress write. -/
def progressOfWrite : SessionWrite → Option ℚ
  | .setProgress p => some p
  | _ => none

/-- The status carried by a write, if it is a status write. -/
def statusOfWrite : SessionWrite → Option SessionStatus
  | .setStatus st => some st
  | _ => none

/-- Evaluation stage: per-listing `try/except` — a listing whose evaluator
call raises is skipped, the rest are paired with their reports in order. -/
def evaluateStage (evalO : Listing → Option EvaluationReport) (listings : List Listing) :
    List (Listing × EvaluationReport) :=
  listings.filterMap (fun l => (evalO l).map (fun e => (l, e)))

/-- Argument stage, same per-item isolation. -/
def argueStage (argO : Listing → EvaluationReport → Option ArgumentReport)
    (evaluated : List (Listing × EvaluationReport)) :
    List (Listing × EvaluationReport × ArgumentReport) :=
  evaluated.filterMap (fun le => (argO le.1 le.2).map (fun a => (le.1, le.2, a)))

/-- Compilation stage, same per-item isolation. -/
def compileStage (compO : Listing → EvaluationReport → ArgumentReport → Option FinalReport)
    (argued : List (Listing × EvaluationReport × ArgumentReport)) : List FinalReport :=
  argued.filterMap (fun lea => compO lea.1 lea.2.1 lea.2.2)

/-- `enumerate` walk of one per-item loop: at index `i`, a successful item
appends the progress write `lo + span * (i + 1) / n`; a failed item writes
nothing (the write sits inside the `try`, after the success). -/
def loopProgressGo (lo span n : ℚ) : ℕ → List Bool → List ℚ
  | _, [] => []
  | i, ok :: rest =>
    if ok then (lo + span * ((i : ℚ) + 1) / n) :: loopProgressGo lo span n (i + 1) rest
    else loopProgressGo lo span n (i + 1) rest

/-- The progress values written by one per-item loop, where the divisor is
the loop's total item count. -/
def loopProgressValues (lo span : ℚ) (oks : List Bool) : List ℚ :=
  loopProgressGo lo span (oks.length : ℚ) 0 oks

/-- `run_search_pipeline` as the ordered list of session-dict assignments
it performs.  `chat_session` is `none` when `chat_session_id` is unknown,
`some none` when the chat session has no resolved preferences.  The three
enrichment collaborators are modelled as response oracles; `none` models a
raised exception for that item. -/
def runSearchPipelineWrites
    (chat_session : Option (Option UserPreferences))
    (scraper_results : List (Except String (List Listing)))
    (evalO : Listing → Option EvaluationReport)
    (argO : Listing → EvaluationReport → Option ArgumentReport)
    (compO : Listing → EvaluationReport → ArgumentReport → Option FinalReport) :
    List SessionWrite :=
  match chat_session with
  | none => [.setStatus .error, .setMessage "Chat session not found"]
  | some none => [.setStatus .error, .setMessage "No preferences found"]
  | some (some _prefs) =>
    let listings := searchAllPlatforms scraper_results
    let evaluated := evaluateStage evalO listings
    let argued := argueStage argO evaluated
    let final_reports := compileStage compO argued
    [.setStatus .scraping, .setMessage "Searching real estate platforms...", .setProgress 20]
    ++ [.setStatus .evaluating, .setMessage "Evaluating listings...", .setProgress 50]
    ++ (loopProgressValues 50 20 (listings.map (fun l => (evalO l).isSome))).map .setProgress
    ++ [.setStatus .evaluating, .setMessage "Generating pro/con arguments...", .setProgress 70]
    ++ (loopProgressValues 70 15 (evaluated.map (fun le => (argO le.1 le.2).isSome))).map
        .setProgress
    ++ [.setStatus .evaluating, .setMessage "Compiling final reports...", .setProgress 85]
    ++ (loopProgressValues 85 10
          (argued.map (fun lea => (compO lea.1 lea.2.1 lea.2.2).isSome))).map .setProgress
    ++ [.setStatus .complete, .setMessage "Analysis complete", .setProgress 100,
        .setListings listings, .setEvaluated evaluated, .setArgued argued,
        .setFinalReports (final_reports.mergeSort finalScoreDescLe)]

/-- All session states observable during one pipeline run: the initial
state and the state after each assignment. -/
def runSearchPipelineStates
    (chat_session : Option (Option UserPreferences))
    (scraper_results : List (Except String (List Listing)))
    (evalO : Listing → Option EvaluationReport)
    (argO : Listing → EvaluationReport → Option ArgumentReport)
    (compO : Listing → EvaluationReport → ArgumentReport → Option FinalReport) :
    List SearchSession :=
  (runSearchPipelineWrites chat_session scraper_results evalO argO compO).scanl
    applyWrite initSearchSession

/-- The session state after the pipeline run finishes. -/
def finalSessionState
    (chat_session : Option (Option UserPreferences))
    (scraper_results : List (Except String (List Listing)))
    (evalO : Listing → Option EvaluationReport)
    (argO : Listing → EvaluationReport → Option ArgumentReport)
    (compO : Listing → EvaluationReport → ArgumentReport → Option FinalReport) :
    SearchSession :=
  (runSearchPipelineWrites chat_session scraper_results evalO argO compO).foldl
    applyWrite initSearchSession

/-! ### Concrete inputs used in scenario theorems and counterexamples -/

/-- A listing at "123 Main St" (first in iteration order). -/
def mainStListing : Listing :=
  { id := "z1", source := "zillow", url := "https://z/1", address := "123 Main St",
    city := "San Jose", state := "CA", zip_code := "95112", price := 850000,
    bedrooms := 3, bathrooms := 2, sqft := 1400, property_type := "house",
    description := "d", images := [] }

/-- A listing at "123 Main Street" (same address, long street form). -/
def mainStreetListing : Listing :=
  { id := "r7", source := "realtor", url := "https://r/7", address := "123 Main Street",
    city := "San Jose", state := "CA", zip_code := "95112", price := 860000,
    bedrooms := 3, bathrooms := 2, sqft := 1400, property_type := "house",
    description := "d2", images := [] }

/-- Generic concrete listing for scenario inputs. -/
def mkListing (i addr : String) : Listing :=
  { id := i, source := "zillow", url := "u", address := addr, city := "c",
    state := "CA", zip_code := "95112", price := 500000, bedrooms := 3,
    bathrooms := 2, sqft := 1200, property_type := "house",
    description := "d", images := [] }

/-- Generic concrete evaluation report. -/
def mkEvaluation (lid : String) : EvaluationReport :=
  { listing_id := lid, preference_match_score := 7, strengths := [], concerns := [] }

/-- Generic concrete argument report. -/
def mkArguments (lid : String) : ArgumentReport :=
  { listing_id := lid, pro_arguments := ["p"], con_arguments := ["c"] }

/-- Generic concrete final report. -/
def mkFinalReport (l : Listing) (score : ℚ) : FinalReport :=
  { listing := l, evaluation := mkEvaluation l.id, arguments := mkArguments l.id,
    final_score := score, executive_summary := "s", recommendation := "Consider" }

/-- Scraper results for the 5-listing scenario: one adapter returning five
listings at distinct addresses. -/
def fiveListingResults : List (Except String (List Listing)) :=
  [.ok [mkListing "1" "1 A St", mkListing "2" "2 B St", mkListing "3" "3 C St",
        mkListing "4" "4 D St", mkListing "5" "5 E St"]]

/-- Evaluator oracle that throws on listing "3" and succeeds elsewhere. -/
def failOn3EvalOracle : Listing → Option EvaluationReport :=
  fun l => if l.id = "3" then none else some (mkEvaluation l.id)

/-- Arguer oracle that always succeeds. -/
def okArgOracle : Listing → EvaluationReport → Option ArgumentReport :=
  fun l _ => some (mkArguments l.id)

/-- Compiler oracle that always succeeds. -/
def okCompOracle : Listing → EvaluationReport → ArgumentReport → Option FinalReport :=
  fun l _ _ => some (mkFinalReport l 5)

/-- Scraper results for the status-projection run: one adapter, one listing. -/
def oneListingResults : List (Except String (List Listing)) :=
  [.ok [mkListing "1" "1 A St"]]

/-- Evaluator oracle that always succeeds. -/
def okEvalOracle : Listing → Option EvaluationReport :=
  fun l => some (mkEvaluation l.id)

/-- A concrete `like` feedback event for session "s", listing "l". -/
def likeEvent : FeedbackEvent :=
  { session_id := "s", listing_id := "l", action := .like,
    features := [("final_score", 8)] }

/-- A concrete `dislike` feedback event for the same (session, listing). -/
def dislikeEvent : FeedbackEvent :=
  { session_id := "s", listing_id := "l", action := .dislike,
    features := [("final_score", 8)] }

/-- First event of the two-event weight-learning scenario. -/
def fbEventA : FeedbackEvent :=
  { session_id := "s", listing_id := "a", action := .like, features := [("f", 1)] }

/-- Second event of the two-event weight-learning scenario. -/
def fbEventB : FeedbackEvent :=
  { session_id := "s", listing_id := "b", action := .dislike, features := [("f", 2)] }

/-! ## Theorems -/

/-! ### Deduplication (claims about the Candidate Collector) -/

theorem dedupGo_eq_keepFirstGo (l : List Listing) :
    ∀ (seen prev : List (List Char)), (∀ n, n ∈ seen ↔ n ∈ prev) →
      dedupGo seen l = keepFirstGo prev l := by
  induction l with
  | nil => intro seen prev _; rfl
  | cons x rest ih =>
    intro seen prev hmem
    simp only [dedupGo, keepFirstGo]
    by_cases h : normalizeAddress x.address ∈ seen
    · rw [if_pos h, if_pos ((hmem _).mp h)]
      refine ih _ _ (fun n => ?_)
      constructor
      · intro hn
        exact List.mem_append_left _ ((hmem n).mp hn)
      · intro hn
        rcases List.mem_append.mp hn with hn | hn
        · exact (hmem n).mpr hn
        · exact List.mem_singleton.mp hn ▸ h
    · rw [if_neg h, if_neg (fun hc => h ((hmem _).mpr hc))]
      congr 1
      refine ih _ _ (fun n => ?_)
      constructor
      · intro hn
        rcases List.mem_cons.mp hn with he | hn
        · exact he ▸ List.mem_append_right _ (List.mem_singleton_self _)
        · exact List.mem_append_left _ ((hmem n).mp hn)
      · intro hn
        rcases List.mem_append.mp hn with hn | hn
        · exact List.mem_cons_of_mem _ ((hmem n).mpr hn)
        · exact List.mem_singleton.mp hn ▸ List.mem_cons_self _ _

theorem mem_dedupGo_not_seen (l : List Listing) :
    ∀ (seen : List (List Char)) (a : Listing), a ∈ dedupGo seen l →
      normalizeAddress a.address ∉ seen := by
  induction l with
  | nil => intro seen a ha; simp [dedupGo] at ha
  | cons x rest ih =>
    intro seen a ha
    simp only [dedupGo] at ha
    by_cases h : normalizeAddress x.address ∈ seen
    · rw [if_pos h] at ha
      exact ih seen a ha
    · rw [if_neg h] at ha
      rcases List.mem_cons.mp ha with rfl | ha
      · exact h
      · intro hc
        exact ih _ a ha (List.mem_cons_of_mem _ hc)

theorem dedupGo_pairwise_norms (l : List Listing) :
    ∀ (seen : List (List Char)),
      (dedupGo seen l).Pairwise
        (fun a b => normalizeAddress a.address ≠ normalizeAddress b.address) := by
  induction l with
  | nil => intro seen; simp [dedupGo]
  | cons x rest ih =>
    intro seen
    simp only [dedupGo]
    by_cases h : normalizeAddress x.address ∈ seen
    · rw [if_pos h]; exact ih seen
    · rw [if_neg h]
      refine List.Pairwise.cons (fun b hb => ?_) (ih _)
      intro hc
      exact mem_dedupGo_not_seen rest _ b hb (by rw [← hc]; exact List.mem_cons_self _ _)

theorem dedupGo_of_fresh (l : List Listing) :
    ∀ (seen : List (List Char)),
      l.Pairwise (fun a b => normalizeAddress a.address ≠ normalizeAddress b.address) →
      (∀ a ∈ l, normalizeAddress a.address ∉ seen) →
      dedupGo seen l = l := by
  induction l with
  | nil => intro seen _ _; rfl
  | cons x rest ih =>
    intro seen hpw hfresh
    simp only [dedupGo]
    rw [if_neg (hfresh x (List.mem_cons_self _ _))]
    congr 1
    refine ih _ (List.Pairwise.of_cons hpw) (fun a ha => ?_)
    simp only [List.mem_cons]
    rintro (hc | hc)
    · exact (List.pairwise_cons.mp hpw).1 a ha (by rw [hc])
    · exact hfresh a (List.mem_cons_of_mem _ ha) hc

/-- C3: the Candidate Collector's deduplication keeps, of each group of
listings with the same normalized (lower-cased, whitespace-collapsed,
period/comma-stripped, street-type-abbreviated) address, exactly the first
one encountered in iteration order; in particular "123 Main St" and
"123 Main Street" collapse to the first of the two. -/
theorem dedup_keeps_first_of_each_normalized_address :
    (∀ listings : List Listing,
        deduplicateListings listings = keepFirstOfEachAddress listings)
    ∧ deduplicateListings [mainStListing, mainStreetListing] = [mainStListing] := by
  constructor
  · intro listings
    exact dedupGo_eq_keepFirstGo listings [] [] (by simp)
  · rfl

/-- C10: deduplication is idempotent — re-running the merge/deduplicate
step on its own output returns that output unchanged, same elements in the
same order. -/
theorem dedup_idempotent :
    ∀ listings : List Listing,
      deduplicateListings (deduplicateListings listings) = deduplicateListings listings := by
  intro listings
  exact dedupGo_of_fresh _ [] (dedupGo_pairwise_norms listings [])
    (fun a _ => by simp)

/-! ### Personalized score (claim C1) -/

theorem weightedSum_foldl_eq_sum (weights : FeatureMap) (features : List (String × ℚ)) :
    ∀ init : ℚ,
      features.foldl
        (fun acc fv =>
          match weights.lookup fv.1 with
          | some w => acc + fv.2 * w
          | none => acc)
        init
      = init + (features.map (fun fv => ((weights.lookup fv.1).getD 0) * fv.2)).sum := by
  induction features with
  | nil => intro init; simp
  | cons f fs ih =>
    intro init
    cases hl : weights.lookup f.1 with
    | none => simp only [List.foldl_cons, hl, List.map_cons, List.sum_cons, Option.getD_none,
        zero_mul, zero_add, ih]
    | some w =>
      simp only [List.foldl_cons, hl, List.map_cons, List.sum_cons, Option.getD_some, ih]
      ring

/-- C1 (amended): the personalized score equals
`clamp(0.7 * final_score + 0.3 * (5 + Σ weight[f]·value[f]), 0, 10)` — the
learned adjustment enters the blend UNclamped; only the blended total is
clamped to `[0, 10]` (and so the result always lies in `[0, 10]`). -/
theorem personalized_score_formula (features weights : FeatureMap) :
    calcPersonalizedScore features weights = specAmendedPersonalizedScore features weights
    ∧ 0 ≤ calcPersonalizedScore features weights
    ∧ calcPersonalizedScore features weights ≤ 10 := by
  refine ⟨?_, le_max_left _ _, max_le (by norm_num) (min_le_left _ _)⟩
  simp only [calcPersonalizedScore, specAmendedPersonalizedScore,
    weightedSum_foldl_eq_sum, zero_add]

/-- C1 (counterexample): at the feature map
`{final_score: 10, price: 100}` and weight map `{price: -1}` the code's
score is `0` while the spec's formula (inner clamp on the adjustment
term) gives `7`. -/
theorem personalized_score_inner_clamp_counterexample :
    calcPersonalizedScore [("final_score", 10), ("price", 100)] [("price", -1)]
      ≠ specClaimedPersonalizedScore [("final_score", 10), ("price", 100)] [("price", -1)] := by
  have hb : ("final_score" == "price") = false := by decide
  norm_num [calcPersonalizedScore, specClaimedPersonalizedScore, List.lookup, hb]

/-! ### Feedback store: last write wins (claim C6) -/

theorem mem_upsertRecord {β : Type} (k : String) (v : β) :
    ∀ (s : KeyedStore β) (p : String × β), p ∈ upsertRecord k v s → p = (k, v) ∨ p ∈ s := by
  intro s
  induction s with
  | nil => intro p hp; simpa [upsertRecord] using hp
  | cons q rest ih =>
    intro p hp
    simp only [upsertRecord] at hp
    by_cases hk : q.1 = k
    · rw [if_pos hk] at hp
      rcases List.mem_cons.mp hp with rfl | hp
      · exact Or.inl rfl
      · exact Or.inr (List.mem_cons_of_mem _ hp)
    · rw [if_neg hk] at hp
      rcases List.mem_cons.mp hp with rfl | hp
      · exact Or.inr (List.mem_cons_self _ _)
      · rcases ih p hp with h | h
        · exact Or.inl h
        · exact Or.inr (List.mem_cons_of_mem _ h)

theorem self_mem_upsertRecord {β : Type} (k : String) (v : β) :
    ∀ s : KeyedStore β, (k, v) ∈ upsertRecord k v s := by
  intro s
  induction s with
  | nil => simp [upsertRecord]
  | cons q rest ih =>
    simp only [upsertRecord]
    by_cases hk : q.1 = k
    · rw [if_pos hk]; exact List.mem_cons_self _ _
    · rw [if_neg hk]; exact List.mem_cons_of_mem _ ih

theorem upsertRecord_keys_nodup {β : Type} (k : String) (v : β) :
    ∀ s : KeyedStore β, (s.map Prod.fst).Nodup → ((upsertRecord k v s).map Prod.fst).Nodup := by
  intro s
  induction s with
  | nil => intro _; simp [upsertRecord]
  | cons q rest ih =>
    intro hnd
    simp only [List.map_cons, List.nodup_cons] at hnd
    simp only [upsertRecord]
    by_cases hk : q.1 = k
    · rw [if_pos hk]
      simp only [List.map_cons, List.nodup_cons]
      exact ⟨by rw [← hk]; exact hnd.1, hnd.2⟩
    · rw [if_neg hk]
      simp only [List.map_cons, List.nodup_cons]
      refine ⟨fun hc => ?_, ih hnd.2⟩
      rcases List.mem_map.mp hc with ⟨p, hp, hfst⟩
      rcases mem_upsertRecord k v rest p hp with rfl | hp
      · exact hk hfst.symm
      · exact hnd.1 (List.mem_map.mpr ⟨p, hp, hfst⟩)

theorem countP_key_upsertRecord {β : Type} (k : String) (v : β) :
    ∀ s : KeyedStore β, (s.map Prod.fst).Nodup →
      (upsertRecord k v s).countP (fun p => decide (p.1 = k)) = 1 := by
  intro s
  induction s with
  | nil => intro _; simp [upsertRecord]
  | cons q rest ih =>
    intro hnd
    simp only [List.map_cons, List.nodup_cons] at hnd
    simp only [upsertRecord]
    by_cases hk : q.1 = k
    · rw [if_pos hk]
      rw [List.countP_cons_of_pos _ _ (by simp)]
      have hz : rest.countP (fun p => decide (p.1 = k)) = 0 := by
        rw [List.countP_eq_zero]
        intro p hp
        simp only [decide_eq_true_eq]
        intro hc
        exact hnd.1 (List.mem_map.mpr ⟨p, hp, by rw [hc, hk]⟩)
      omega
    · rw [if_neg hk]
      rw [List.countP_cons_of_neg _ _ (by simpa using hk)]
      exact ih hnd.2

theorem lookup_upsertRecord_self {β : Type} (k : String) (v : β) :
    ∀ s : KeyedStore β, (upsertRecord k v s).lookup k = some v := by
  intro s
  induction s with
  | nil => simp [upsertRecord, List.lookup]
  | cons q rest ih =>
    simp only [upsertRecord]
    by_cases hk : q.1 = k
    · rw [if_pos hk]; simp [List.lookup]
    · rw [if_neg hk]
      have hb : (k == q.1) = false := beq_eq_false_iff_ne.mpr (fun h => hk h.symm)
      simp only [List.lookup, hb]
      exact ih

theorem countP_key_le_one {β : Type} (k : String) :
    ∀ s : KeyedStore β, (s.map Prod.fst).Nodup →
      s.countP (fun p => decide (p.1 = k)) ≤ 1 := by
  intro s
  induction s with
  | nil => intro _; simp
  | cons q rest ih =>
    intro hnd
    simp only [List.map_cons, List.nodup_cons] at hnd
    by_cases hk : q.1 = k
    · rw [List.countP_cons_of_pos _ _ (by simpa using hk)]
      have hz : rest.countP (fun p => decide (p.1 = k)) = 0 := by
        rw [List.countP_eq_zero]
        intro p hp
        simp only [decide_eq_true_eq]
        intro hc
        exact hnd.1 (List.mem_map.mpr ⟨p, hp, by rw [hc, hk]⟩)
      omega
    · rw [List.countP_cons_of_neg _ _ (by simpa using hk)]
      exact ih hnd.2

theorem keyed_mem_unique {β : Type} (k : String) (a b : β) :
    ∀ s : KeyedStore β, (s.map Prod.fst).Nodup →
      (k, a) ∈ s → (k, b) ∈ s → a = b := by
  intro s
  induction s with
  | nil => intro _ ha _; simp at ha
  | cons q rest ih =>
    intro hnd ha hb
    simp only [List.map_cons, List.nodup_cons] at hnd
    rcases List.mem_cons.mp ha with ha1 | ha2
    · rcases List.mem_cons.mp hb with hb1 | hb2
      · rw [← ha1] at hb1
        exact congrArg Prod.snd hb1.symm
      · exfalso
        apply hnd.1
        rw [← ha1]
        exact List.mem_map.mpr ⟨(k, b), hb2, rfl⟩
    · rcases List.mem_cons.mp hb with hb1 | hb2
      · exfalso
        apply hnd.1
        rw [← hb1]
        exact List.mem_map.mpr ⟨(k, a), ha2, rfl⟩
      · exact ih hnd.2 ha2 hb2

theorem foldl_recordFeedback_invariants (reqs : List FeedbackEvent) :
    ∀ s : KeyedStore FeedbackEvent,
      (s.map Prod.fst).Nodup →
      (∀ p ∈ s, p.1 = feedbackId p.2.session_id p.2.listing_id) →
      (((reqs.foldl recordFeedback s).map Prod.fst).Nodup
        ∧ ∀ p ∈ reqs.foldl recordFeedback s,
            p.1 = feedbackId p.2.session_id p.2.listing_id) := by
  induction reqs with
  | nil => intro s h1 h2; exact ⟨h1, h2⟩
  | cons e rest ih =>
    intro s h1 h2
    simp only [List.foldl_cons]
    refine ih _ (upsertRecord_keys_nodup _ _ _ h1) (fun p hp => ?_)
    rcases mem_upsertRecord _ _ _ _ hp with rfl | hp
    · rfl
    · exact h2 p hp

/-- C6: feedback storage is keyed by the (session id, listing id) pair —
after any sequence of `record_feedback` calls there is at most one stored
event per pair, a repeated action for the same pair overwrites the prior
event, and a `like` followed by a `dislike` for the same pair leaves
exactly one event for that pair, the `dislike`. -/
theorem feedback_last_write_wins
    (reqs : List FeedbackEvent) (sid lid : String) (e1 e2 : FeedbackEvent)
    (h1s : e1.session_id = sid) (h1l : e1.listing_id = lid) (h1a : e1.action = .like)
    (h2s : e2.session_id = sid) (h2l : e2.listing_id = lid) (h2a : e2.action = .dislike) :
    ((recordFeedback (recordFeedback (reqs.foldl recordFeedback []) e1) e2).countP
        (fun p => decide (p.2.session_id = sid ∧ p.2.listing_id = lid)) = 1)
    ∧ (∀ sid' lid',
        (recordFeedback (recordFeedback (reqs.foldl recordFeedback []) e1) e2).countP
          (fun p => decide (p.2.session_id = sid' ∧ p.2.listing_id = lid')) ≤ 1)
    ∧ (∀ p ∈ recordFeedback (recordFeedback (reqs.foldl recordFeedback []) e1) e2,
        p.2.session_id = sid → p.2.listing_id = lid → p.2 = e2 ∧ p.2.action = .dislike) := by
  have hfold :
      recordFeedback (recordFeedback (reqs.foldl recordFeedback []) e1) e2
        = (reqs ++ [e1, e2]).foldl recordFeedback [] := by
    rw [List.foldl_append]
    rfl
  have hinv := foldl_recordFeedback_invariants (reqs ++ [e1, e2]) []
    (by simp) (by simp)
  rw [← hfold] at hinv
  set s2 := recordFeedback (recordFeedback (reqs.foldl recordFeedback []) e1) e2 with hs2
  have hle : ∀ sid' lid',
      s2.countP (fun p => decide (p.2.session_id = sid' ∧ p.2.listing_id = lid')) ≤ 1 := by
    intro sid' lid'
    have hmono : s2.countP (fun p => decide (p.2.session_id = sid' ∧ p.2.listing_id = lid'))
        ≤ s2.countP (fun p => decide (p.1 = feedbackId sid' lid')) := by
      refine List.countP_mono_left (fun p hp => ?_)
      simp only [decide_eq_true_eq]
      rintro ⟨hps, hpl⟩
      rw [hinv.2 p hp, hps, hpl]
    exact le_trans hmono (countP_key_le_one _ s2 hinv.1)
  have hmem2 : (feedbackId sid lid, e2) ∈ s2 := by
    rw [hs2]
    show (feedbackId sid lid, e2) ∈ upsertRecord (feedbackId e2.session_id e2.listing_id) e2 _
    rw [h2s, h2l]
    exact self_mem_upsertRecord _ _ _
  refine ⟨?_, hle, ?_⟩
  · refine le_antisymm (hle sid lid) ?_
    have : 0 < s2.countP (fun p => decide (p.2.session_id = sid ∧ p.2.listing_id = lid)) := by
      rw [List.countP_pos]
      exact ⟨(feedbackId sid lid, e2), hmem2, by simp [h2s, h2l]⟩
    omega
  · intro p hp hps hpl
    have hkey : p.1 = feedbackId sid lid := by
      rw [hinv.2 p hp, hps, hpl]
    have : p.2 = e2 := by
      refine keyed_mem_unique (feedbackId sid lid) p.2 e2 s2 hinv.1 ?_ hmem2
      rw [← hkey]
      exact hp
    exact ⟨this, by rw [this, h2a]⟩

/-- Witness for C6 at concrete inputs: empty history, then a `like` and a
`dislike` for session "s", listing "l". -/
theorem feedback_last_write_wins_witness :
    (likeEvent.session_id = "s" ∧ likeEvent.listing_id = "l"
      ∧ likeEvent.action = .like ∧ dislikeEvent.session_id = "s"
      ∧ dislikeEvent.listing_id = "l" ∧ dislikeEvent.action = .dislike)
    ∧ (((recordFeedback (recordFeedback (([] : List FeedbackEvent).foldl recordFeedback [])
            likeEvent) dislikeEvent).countP
          (fun p => decide (p.2.session_id = "s" ∧ p.2.listing_id = "l")) = 1)
        ∧ (∀ sid' lid',
            (recordFeedback (recordFeedback (([] : List FeedbackEvent).foldl recordFeedback [])
               likeEvent) dislikeEvent).countP
              (fun p => decide (p.2.session_id = sid' ∧ p.2.listing_id = lid')) ≤ 1)
        ∧ (∀ p ∈ recordFeedback (recordFeedback (([] : List FeedbackEvent).foldl recordFeedback [])
              likeEvent) dislikeEvent,
            p.2.session_id = "s" → p.2.listing_id = "l"
              → p.2 = dislikeEvent ∧ p.2.action = .dislike)) :=
  ⟨⟨rfl, rfl, rfl, rfl, rfl, rfl⟩,
    feedback_last_write_wins [] "s" "l" likeEvent dislikeEvent rfl rfl rfl rfl rfl rfl⟩

/-! ### Ranking (claims C8, C9) -/

theorem finalScoreDescLe_trans (a b c : FinalReport) :
    finalScoreDescLe a b = true → finalScoreDescLe b c = true →
      finalScoreDescLe a c = true := by
  simp only [finalScoreDescLe, decide_eq_true_eq]
  exact fun h1 h2 => le_trans h2 h1

theorem finalScoreDescLe_total (a b : FinalReport) :
    (finalScoreDescLe a b || finalScoreDescLe b a) = true := by
  simp only [finalScoreDescLe, Bool.or_eq_true, decide_eq_true_eq]
  exact le_total b.final_score a.final_score

theorem getRankedListings_perm (w : Option FeatureMap) (l : List FinalReport) :
    (getRankedListings w l).Perm l := by
  cases w with
  | none => exact List.mergeSort_perm _ _
  | some ws =>
    by_cases he : ws.isEmpty
    · simp only [getRankedListings, if_pos he]
      exact List.mergeSort_perm _ _
    · simp only [getRankedListings, if_neg he]
      refine List.Perm.trans (List.Perm.map _ (List.mergeSort_perm _ _)) ?_
      have h1 : ∀ l' : List FinalReport,
          (l'.map (fun report =>
            (calcPersonalizedScore (extractFeatures report.listing report) ws, report))).map
              Prod.snd = l' := by
        intro l'
        induction l' with
        | nil => rfl
        | cons x xs ih => simp [ih]
      rw [h1]

/-- C8: with fewer than 2 recorded feedback events no weights are computed
or stored (the weight-update is a no-op), and ranking without stored
weights returns the reports sorted by `final_score` descending, stably:
the result is a permutation of the input, is sorted non-increasingly by
`final_score`, and any two reports with equal scores keep their relative
input order. -/
theorem ranking_without_feedback
    (wstore : KeyedStore (List (String × ℝ))) (sid : String)
    (events : List FeedbackEvent) (reports : List FinalReport)
    (h : events.length < 2) :
    updatePreferenceWeights wstore sid events = wstore
    ∧ (getRankedListings none reports).Perm reports
    ∧ (getRankedListings none reports).Pairwise
        (fun a b => b.final_score ≤ a.final_score)
    ∧ (∀ a b : FinalReport, [a, b].Sublist reports → a.final_score = b.final_score →
        [a, b].Sublist (getRankedListings none reports)) := by
  refine ⟨by rw [updatePreferenceWeights, if_pos h], List.mergeSort_perm _ _, ?_, ?_⟩
  · have hs := List.sorted_mergeSort finalScoreDescLe_trans finalScoreDescLe_total reports
    exact hs.imp (fun hab => by simpa [finalScoreDescLe] using hab)
  · intro a b hsub heq
    exact List.mergeSort_stable_pair finalScoreDescLe_trans finalScoreDescLe_total
      (by simp [finalScoreDescLe, heq]) hsub

/-- Witness for C8 at concrete inputs: an empty event history and two
reports with distinct scores. -/
theorem ranking_without_feedback_witness :
    (([] : List FeedbackEvent).length < 2)
    ∧ (updatePreferenceWeights [] "s" [] = []
        ∧ (getRankedListings none [mkFinalReport (mkListing "1" "1 A St") 3,
            mkFinalReport (mkListing "2" "2 B St") 9]).Perm
            [mkFinalReport (mkListing "1" "1 A St") 3,
             mkFinalReport (mkListing "2" "2 B St") 9]
        ∧ (getRankedListings none [mkFinalReport (mkListing "1" "1 A St") 3,
            mkFinalReport (mkListing "2" "2 B St") 9]).Pairwise
            (fun a b => b.final_score ≤ a.final_score)
        ∧ (∀ a b : FinalReport,
            [a, b].Sublist [mkFinalReport (mkListing "1" "1 A St") 3,
              mkFinalReport (mkListing "2" "2 B St") 9] →
            a.final_score = b.final_score →
            [a, b].Sublist (getRankedListings none
              [mkFinalReport (mkListing "1" "1 A St") 3,
               mkFinalReport (mkListing "2" "2 B St") 9]))) :=
  ⟨by decide,
    ranking_without_feedback [] "s" []
      [mkFinalReport (mkListing "1" "1 A St") 3, mkFinalReport (mkListing "2" "2 B St") 9]
      (by decide)⟩

/-- C9: `get_next_listing` never returns a report whose listing id is in
the seen set, and it returns `none` exactly when every available report's
listing id has been seen. -/
theorem next_listing_skips_seen (weights : Option FeatureMap)
    (available_listings : List FinalReport) (seen_listing_ids : List String) :
    (∀ r : FinalReport,
        getNextListing weights available_listings seen_listing_ids = some r →
          r.listing.id ∉ seen_listing_ids)
    ∧ (getNextListing weights available_listings seen_listing_ids = none ↔
        ∀ r ∈ available_listings, r.listing.id ∈ seen_listing_ids) := by
  by_cases hu :
      (available_listings.filter
        (fun r => decide (r.listing.id ∉ seen_listing_ids))).isEmpty
  · constructor
    · intro r hr
      rw [getNextListing, if_pos hu] at hr
      exact absurd hr (by simp)
    · rw [getNextListing, if_pos hu]
      simp only [true_iff]
      intro r hr
      rw [List.isEmpty_iff] at hu
      by_contra hc
      have : r ∈ available_listings.filter
          (fun r => decide (r.listing.id ∉ seen_listing_ids)) :=
        List.mem_filter.mpr ⟨hr, by simpa using hc⟩
      rw [hu] at this
      simp at this
  · have hne : available_listings.filter
        (fun r => decide (r.listing.id ∉ seen_listing_ids)) ≠ [] := by
      intro hc
      rw [hc] at hu
      simp at hu
    constructor
    · intro r hr
      rw [getNextListing, if_neg hu] at hr
      have hrmem :
          r ∈ getRankedListings weights
            (available_listings.filter
              (fun r => decide (r.listing.id ∉ seen_listing_ids))) :=
        List.mem_of_mem_head? hr
      have : r ∈ available_listings.filter
          (fun r => decide (r.listing.id ∉ seen_listing_ids)) :=
        (getRankedListings_perm _ _).mem_iff.mp hrmem
      simpa using (List.mem_filter.mp this).2
    · rw [getNextListing, if_neg hu]
      have hrne : getRankedListings weights
          (available_listings.filter
            (fun r => decide (r.listing.id ∉ seen_listing_ids))) ≠ [] := by
        intro hc
        have hp := (getRankedListings_perm weights
          (available_listings.filter
            (fun r => decide (r.listing.id ∉ seen_listing_ids)))).length_eq
        rw [hc] at hp
        simp only [List.length_nil] at hp
        exact hne (List.length_eq_zero.mp hp.symm)
      constructor
      · intro hc
        rw [List.head?_eq_none_iff] at hc
        exact absurd hc hrne
      · intro hall
        exfalso
        rcases List.exists_mem_of_ne_nil _ hne with ⟨r, hr⟩
        have h1 := (List.mem_filter.mp hr).1
        have h2 := (List.mem_filter.mp hr).2
        simp only [decide_eq_true_eq] at h2
        exact h2 (hall r h1)

/-! ### Pipeline infrastructure lemmas (claims C2, C4, C5) -/

theorem loopProgressGo_bounds (lo span n : ℚ) (hspan : 0 < span) (hn : 0 < n) :
    ∀ (l : List Bool) (i : ℕ), ((i : ℚ) + l.length ≤ n) →
      (∀ v ∈ loopProgressGo lo span n i l,
          lo + span * ((i : ℚ) + 1) / n ≤ v ∧ v ≤ lo + span)
      ∧ (loopProgressGo lo span n i l).Chain' (· ≤ ·) := by
  intro l
  induction l with
  | nil => intro i _; exact ⟨by simp [loopProgressGo], by simp [loopProgressGo]⟩
  | cons ok rest ih =>
    intro i hle
    have hcast : ((i + 1 : ℕ) : ℚ) + rest.length ≤ n := by
      push_cast
      push_cast [List.length_cons] at hle
      linarith
    have hstep : lo + span * ((i : ℚ) + 1) / n ≤ lo + span * (((i + 1 : ℕ) : ℚ) + 1) / n := by
      have : span * ((i : ℚ) + 1) ≤ span * (((i + 1 : ℕ) : ℚ) + 1) := by
        apply mul_le_mul_of_nonneg_left _ (le_of_lt hspan)
        push_cast
        linarith
      have := (div_le_div_right hn).mpr this
      linarith
    have hup : lo + span * ((i : ℚ) + 1) / n ≤ lo + span := by
      have h1 : (i : ℚ) + 1 ≤ n := by
        have : (0 : ℚ) ≤ rest.length := by positivity
        push_cast [List.length_cons] at hle
        linarith
      have h2 : span * ((i : ℚ) + 1) / n ≤ span := by
        rw [div_le_iff hn]
        have : (i : ℚ) + 1 ≥ 0 := by positivity
        nlinarith
      linarith
    rcases ih (i + 1) hcast with ⟨ihb, ihc⟩
    cases ok with
    | false =>
      have hred : loopProgressGo lo span n i (false :: rest)
          = loopProgressGo lo span n (i + 1) rest := by
        simp [loopProgressGo]
      rw [hred]
      refine ⟨fun v hv => ?_, ihc⟩
      rcases ihb v hv with ⟨h1, h2⟩
      exact ⟨le_trans hstep h1, h2⟩
    | true =>
      have hred : loopProgressGo lo span n i (true :: rest)
          = (lo + span * ((i : ℚ) + 1) / n) :: loopProgressGo lo span n (i + 1) rest := by
        simp [loopProgressGo]
      rw [hred]
      constructor
      · intro v hv
        rcases List.mem_cons.mp hv with rfl | hv
        · exact ⟨le_refl _, hup⟩
        · rcases ihb v hv with ⟨h1, h2⟩
          exact ⟨le_trans hstep h1, h2⟩
      · rw [List.chain'_cons']
        refine ⟨fun y hy => ?_, ihc⟩
        have hymem := List.mem_of_mem_head? hy
        exact le_trans hstep (ihb y hymem).1

theorem loopProgressValues_bounds (lo span : ℚ) (hspan : 0 < span) (oks : List Bool) :
    (∀ v ∈ loopProgressValues lo span oks, lo < v ∧ v ≤ lo + span)
    ∧ (loopProgressValues lo span oks).Chain' (· ≤ ·) := by
  cases oks with
  | nil => exact ⟨by simp [loopProgressValues, loopProgressGo], by simp [loopProgressValues, loopProgressGo]⟩
  | cons ok rest =>
    have hn : (0 : ℚ) < ((ok :: rest).length : ℚ) := by
      simp only [List.length_cons]
      positivity
    have hle : ((0 : ℕ) : ℚ) + ((ok :: rest).length : ℚ) ≤ ((ok :: rest).length : ℚ) := by
      simp
    rcases loopProgressGo_bounds lo span ((ok :: rest).length : ℚ) hspan hn (ok :: rest) 0 hle
      with ⟨hb, hc⟩
    refine ⟨fun v hv => ?_, hc⟩
    rcases hb v hv with ⟨h1, h2⟩
    refine ⟨lt_of_lt_of_le ?_ h1, h2⟩
    have : 0 < span * (((0 : ℕ) : ℚ) + 1) / ((ok :: rest).length : ℚ) := by
      apply div_pos _ hn
      push_cast
      linarith
    linarith

theorem scanl_ne_nil {σ W : Type} (f : σ → W → σ) (s : σ) (l : List W) :
    l.scanl f s ≠ [] := by
  cases l <;> simp [List.scanl]

theorem scanl_append_eq {σ W : Type} (f : σ → W → σ) :
    ∀ (l1 l2 : List W) (s : σ),
      (l1 ++ l2).scanl f s = (l1.scanl f s).dropLast ++ l2.scanl f (l1.foldl f s) := by
  intro l1
  induction l1 with
  | nil => intro l2 s; simp [List.scanl]
  | cons w l1' ih =>
    intro l2 s
    simp only [List.cons_append, List.scanl, List.foldl_cons, List.append_eq]
    rw [ih l2 (f s w)]
    rw [List.dropLast_cons_of_ne_nil (scanl_ne_nil f (f s w) l1')]
    simp

theorem mem_scanl_append {σ W : Type} (f : σ → W → σ) (l1 l2 : List W) (s : σ) (t : σ) :
    t ∈ (l1 ++ l2).scanl f s → t ∈ l1.scanl f s ∨ t ∈ l2.scanl f (l1.foldl f s) := by
  intro ht
  rw [scanl_append_eq] at ht
  rcases List.mem_append.mp ht with h | h
  · exact Or.inl (List.dropLast_sublist _ |>.mem h)
  · exact Or.inr h

theorem mem_scanl_invariant {σ W : Type} (f : σ → W → σ) (P : σ → Prop) :
    ∀ (ws : List W) (s : σ), P s → (∀ w ∈ ws, ∀ t, P t → P (f t w)) →
      ∀ t ∈ ws.scanl f s, P t := by
  intro ws
  induction ws with
  | nil =>
    intro s hs _ t ht
    simp only [List.scanl] at ht
    rcases List.mem_singleton.mp ht with rfl
    exact hs
  | cons w ws' ih =>
    intro s hs hstep t ht
    simp only [List.scanl] at ht
    rcases List.mem_cons.mp ht with rfl | ht
    · exact hs
    · exact ih (f s w) (hstep w (List.mem_cons_self _ _) s hs)
        (fun w' hw' => hstep w' (List.mem_cons_of_mem _ hw')) t ht

theorem foldl_progressMap (qs : List ℚ) :
    ∀ s : SearchSession,
      List.foldl applyWrite s (qs.map SessionWrite.setProgress)
        = { s with progress := qs.getLastD s.progress } := by
  induction qs with
  | nil => intro s; rfl
  | cons q qs' ih =>
    intro s
    simp only [List.map_cons, List.foldl_cons, applyWrite, ih, List.getLastD_cons]

theorem scanl_progressMap_fields (qs : List ℚ) :
    ∀ (s t : SearchSession), t ∈ (qs.map SessionWrite.setProgress).scanl applyWrite s →
      t.status = s.status ∧ t.message = s.message ∧ t.listings = s.listings
        ∧ t.evaluated_listings = s.evaluated_listings
        ∧ t.argued_listings = s.argued_listings
        ∧ t.final_reports = s.final_reports := by
  induction qs with
  | nil =>
    intro s t ht
    simp only [List.map_nil, List.scanl] at ht
    rcases List.mem_singleton.mp ht with rfl
    exact ⟨rfl, rfl, rfl, rfl, rfl, rfl⟩
  | cons q qs' ih =>
    intro s t ht
    simp only [List.map_cons, List.scanl] at ht
    rcases List.mem_cons.mp ht with rfl | ht
    · exact ⟨rfl, rfl, rfl, rfl, rfl, rfl⟩
    · exact ih (applyWrite s (SessionWrite.setProgress q)) t ht

theorem chain'_le_glue (e : List ℚ) :
    ∀ (x y : ℚ) (t : List ℚ), x ≤ y →
      e.Chain' (· ≤ ·) → (∀ h ∈ e.head?, x ≤ h) → (∀ v ∈ e, v ≤ y) →
      (y :: t).Chain' (· ≤ ·) → (x :: (e ++ y :: t)).Chain' (· ≤ ·) := by
  induction e with
  | nil =>
    intro x y t hxy _ _ _ ht
    simp only [List.nil_append]
    exact List.chain'_cons.mpr ⟨hxy, ht⟩
  | cons v e' ih =>
    intro x y t hxy hce hhead hhi ht
    simp only [List.cons_append]
    refine List.chain'_cons.mpr ⟨hhead v rfl, ?_⟩
    refine ih v y t (hhi v (List.mem_cons_self _ _)) hce.tail ?_
      (fun u hu => hhi u (List.mem_cons_of_mem _ hu)) ht
    intro h hh
    exact (List.chain'_cons'.mp hce).1 h hh

theorem head?_map_scanl {σ μ W : Type} (f : σ → W → σ) (proj : σ → μ) (s : σ) (l : List W) :
    ((l.scanl f s).map proj).head? = some (proj s) := by
  cases l <;> simp [List.scanl]

theorem chain'_scanl_of_writes {μ : Type} (R : μ → μ → Prop)
    (proj : SearchSession → μ) (extract : SessionWrite → Option μ)
    (hrefl : ∀ a, R a a)
    (hcompat : ∀ s w, (extract w = none ∧ proj (applyWrite s w) = proj s)
        ∨ ∃ v, extract w = some v ∧ proj (applyWrite s w) = v) :
    ∀ (ws : List SessionWrite) (s : SearchSession),
      (proj s :: ws.filterMap extract).Chain' R →
      ((ws.scanl applyWrite s).map proj).Chain' R := by
  intro ws
  induction ws with
  | nil =>
    intro s _
    simp [List.scanl]
  | cons w ws' ih =>
    intro s hch
    simp only [List.scanl, List.map_cons]
    rcases hcompat s w with ⟨hex, hpr⟩ | ⟨v, hex, hpr⟩
    · rw [List.filterMap_cons_none hex] at hch
      refine List.chain'_cons'.mpr ⟨?_, ih (applyWrite s w) (by rw [hpr]; exact hch)⟩
      intro h hh
      rw [head?_map_scanl] at hh
      simp only [Option.mem_def, Option.some.injEq] at hh
      rw [← hh, hpr]
      exact hrefl _
    · rw [List.filterMap_cons_some hex] at hch
      have h1 : R (proj s) v := (List.chain'_cons.mp hch).1
      have h2 := (List.chain'_cons.mp hch).2
      refine List.chain'_cons'.mpr ⟨?_, ih (applyWrite s w) (by rw [hpr]; exact h2)⟩
      intro h hh
      rw [head?_map_scanl] at hh
      simp only [Option.mem_def, Option.some.injEq] at hh
      rw [← hh, hpr]
      exact h1

theorem filterMap_progress_progressMap (qs : List ℚ) :
    (qs.map SessionWrite.setProgress).filterMap progressOfWrite = qs := by
  induction qs with
  | nil => rfl
  | cons q qs' ih => simp [progressOfWrite, ih]

theorem filterMap_status_progressMap (qs : List ℚ) :
    (qs.map SessionWrite.setProgress).filterMap statusOfWrite = [] := by
  induction qs with
  | nil => rfl
  | cons q qs' ih => simp [statusOfWrite, ih]

/-- C5: over one pipeline run the sequence of progress values across the
observable session states is non-decreasing and stays within `[0, 100]`,
and the status only moves forward through
`pending → scraping → evaluating → complete` (with `error` as a terminal
jump, ranked above every other state); the session never reverts. -/
theorem pipeline_progress_status_monotone
    (chat_session : Option (Option UserPreferences))
    (scraper_results : List (Except String (List Listing)))
    (evalO : Listing → Option EvaluationReport)
    (argO : Listing → EvaluationReport → Option ArgumentReport)
    (compO : Listing → EvaluationReport → ArgumentReport → Option FinalReport) :
    ((runSearchPipelineStates chat_session scraper_results evalO argO compO).map
        (·.progress)).Pairwise (· ≤ ·)
    ∧ (∀ t ∈ runSearchPipelineStates chat_session scraper_results evalO argO compO,
        0 ≤ t.progress ∧ t.progress ≤ 100)
    ∧ ((runSearchPipelineStates chat_session scraper_results evalO argO compO).map
        (fun t => statusRank t.status)).Pairwise (· ≤ ·) := by
  haveI : IsTrans SessionStatus (fun a b => statusRank a ≤ statusRank b) :=
    ⟨fun _ _ _ h1 h2 => le_trans h1 h2⟩
  have hcompatP : ∀ s w, (progressOfWrite w = none
        ∧ (applyWrite s w).progress = s.progress)
      ∨ ∃ v, progressOfWrite w = some v ∧ (applyWrite s w).progress = v := by
    intro s w
    cases w <;> simp [applyWrite, progressOfWrite]
  have hcompatS : ∀ s w, (statusOfWrite w = none
        ∧ (applyWrite s w).status = s.status)
      ∨ ∃ v, statusOfWrite w = some v ∧ (applyWrite s w).status = v := by
    intro s w
    cases w <;> simp [applyWrite, statusOfWrite]
  have hmain : ∀ ws : List SessionWrite,
      ((initSearchSession.progress :: ws.filterMap progressOfWrite).Chain' (· ≤ ·)) →
      ((initSearchSession.status :: ws.filterMap statusOfWrite).Chain'
        (fun a b => statusRank a ≤ statusRank b)) →
      (∀ w ∈ ws, ∀ t : SearchSession, (0 ≤ t.progress ∧ t.progress ≤ 100) →
        (0 ≤ (applyWrite t w).progress ∧ (applyWrite t w).progress ≤ 100)) →
      ((ws.scanl applyWrite initSearchSession).map (·.progress)).Pairwise (· ≤ ·)
      ∧ (∀ t ∈ ws.scanl applyWrite initSearchSession,
          0 ≤ t.progress ∧ t.progress ≤ 100)
      ∧ ((ws.scanl applyWrite initSearchSession).map
          (fun t => statusRank t.status)).Pairwise (· ≤ ·) := by
    intro ws hchp hchs hbound
    refine ⟨List.chain'_iff_pairwise.mp
        (chain'_scanl_of_writes (· ≤ ·) (·.progress) progressOfWrite
          (fun a => le_refl a) hcompatP ws initSearchSession hchp), ?_, ?_⟩
    · exact mem_scanl_invariant applyWrite
        (fun t => 0 ≤ t.progress ∧ t.progress ≤ 100) ws initSearchSession
        (by norm_num [initSearchSession]) hbound
    · have h := List.chain'_iff_pairwise.mp
        (chain'_scanl_of_writes (fun a b => statusRank a ≤ statusRank b) (·.status)
          statusOfWrite (fun a => le_refl _) hcompatS ws initSearchSession hchs)
      rw [List.pairwise_map] at h
      rw [List.pairwise_map]
      exact h
  rcases chat_session with _ | ch
  · refine hmain _ ?_ ?_ ?_
    · simp [runSearchPipelineWrites, progressOfWrite, statusOfWrite, initSearchSession]
    · simp only [runSearchPipelineWrites, List.filterMap_cons, statusOfWrite,
        progressOfWrite, List.filterMap_nil, initSearchSession]
      simp [List.chain'_cons, statusRank]
    · intro w hw t ht
      simp only [runSearchPipelineWrites, List.mem_cons] at hw
      rcases hw with rfl | hw
      · simpa [applyWrite] using ht
      · rcases hw with rfl | hw
        · simpa [applyWrite] using ht
        · simp at hw
  · rcases ch with _ | prefs
    · refine hmain _ ?_ ?_ ?_
      · simp [runSearchPipelineWrites, progressOfWrite, statusOfWrite, initSearchSession]
      · simp only [runSearchPipelineWrites, List.filterMap_cons, statusOfWrite,
          progressOfWrite, List.filterMap_nil, initSearchSession]
        simp [List.chain'_cons, statusRank]
      · intro w hw t ht
        simp only [runSearchPipelineWrites, List.mem_cons] at hw
        rcases hw with rfl | hw
        · simpa [applyWrite] using ht
        · rcases hw with rfl | hw
          · simpa [applyWrite] using ht
          · simp at hw
    · have heb := loopProgressValues_bounds 50 20 (by norm_num)
        ((searchAllPlatforms scraper_results).map (fun l => (evalO l).isSome))
      have hab := loopProgressValues_bounds 70 15 (by norm_num)
        ((evaluateStage evalO (searchAllPlatforms scraper_results)).map
          (fun le => (argO le.1 le.2).isSome))
      have hcb := loopProgressValues_bounds 85 10 (by norm_num)
        ((argueStage argO (evaluateStage evalO (searchAllPlatforms scraper_results))).map
          (fun lea => (compO lea.1 lea.2.1 lea.2.2).isSome))
      set e := loopProgressValues 50 20
        ((searchAllPlatforms scraper_results).map (fun l => (evalO l).isSome)) with he
      set a := loopProgressValues 70 15
        ((evaluateStage evalO (searchAllPlatforms scraper_results)).map
          (fun le => (argO le.1 le.2).isSome)) with ha
      set c := loopProgressValues 85 10
        ((argueStage argO (evaluateStage evalO (searchAllPlatforms scraper_results))).map
          (fun lea => (compO lea.1 lea.2.1 lea.2.2).isSome)) with hc
      have hpf : (runSearchPipelineWrites (some (some prefs)) scraper_results
            evalO argO compO).filterMap progressOfWrite
          = 20 :: 50 :: (e ++ 70 :: (a ++ 85 :: (c ++ [100]))) := by
        simp only [runSearchPipelineWrites, List.filterMap_append,
          filterMap_progress_progressMap, List.filterMap_cons, progressOfWrite,
          List.filterMap_nil, ← he, ← ha, ← hc]
        simp
      have hsf : (runSearchPipelineWrites (some (some prefs)) scraper_results
            evalO argO compO).filterMap statusOfWrite
          = [.scraping, .evaluating, .evaluating, .evaluating, .complete] := by
        simp only [runSearchPipelineWrites, List.filterMap_append,
          filterMap_status_progressMap, List.filterMap_cons, statusOfWrite,
          List.filterMap_nil, ← he, ← ha, ← hc]
        simp
      refine hmain _ ?_ ?_ ?_
      · rw [hpf]
        have hcc : List.Chain' (· ≤ ·) ((85 : ℚ) :: (c ++ [100])) := by
          refine chain'_le_glue c 85 100 [] (by norm_num) hcb.2 ?_ ?_ ?_
          · intro h hh
            exact le_of_lt (hcb.1 h (List.mem_of_mem_head? hh)).1
          · intro v hv
            linarith [(hcb.1 v hv).2]
          · simp
        have hca : List.Chain' (· ≤ ·) ((70 : ℚ) :: (a ++ 85 :: (c ++ [100]))) := by
          refine chain'_le_glue a 70 85 (c ++ [100]) (by norm_num) hab.2 ?_ ?_ hcc
          · intro h hh
            exact le_of_lt (hab.1 h (List.mem_of_mem_head? hh)).1
          · intro v hv
            linarith [(hab.1 v hv).2]
        have hce : List.Chain' (· ≤ ·) ((50 : ℚ) :: (e ++ 70 :: (a ++ 85 :: (c ++ [100])))) := by
          refine chain'_le_glue e 50 70 (a ++ 85 :: (c ++ [100])) (by norm_num) heb.2 ?_ ?_ hca
          · intro h hh
            exact le_of_lt (heb.1 h (List.mem_of_mem_head? hh)).1
          · intro v hv
            linarith [(heb.1 v hv).2]
        show List.Chain' (· ≤ ·) ((0 : ℚ) :: 20 :: 50 :: (e ++ 70 :: (a ++ 85 :: (c ++ [100]))))
        refine List.chain'_cons.mpr ⟨by norm_num, List.chain'_cons.mpr ⟨by norm_num, hce⟩⟩
      · rw [hsf]
        show List.Chain' (fun x y => statusRank x ≤ statusRank y)
          (SessionStatus.pending :: [.scraping, .evaluating, .evaluating, .evaluating, .complete])
        simp [List.chain'_cons, statusRank]
      · intro w hw t ht
        have hp : ∀ p : ℚ, w = .setProgress p → 0 ≤ p ∧ p ≤ 100 := by
          intro p hwp
          have hpm : p ∈ (runSearchPipelineWrites (some (some prefs)) scraper_results
              evalO argO compO).filterMap progressOfWrite := by
            refine List.mem_filterMap.mpr ⟨w, hw, ?_⟩
            rw [hwp]
            rfl
          rw [hpf] at hpm
          rcases List.mem_cons.mp hpm with rfl | hpm
          · norm_num
          rcases List.mem_cons.mp hpm with rfl | hpm
          · norm_num
          rcases List.mem_append.mp hpm with hme | hpm
          · have := heb.1 p hme
            constructor <;> linarith [this.1, this.2]
          rcases List.mem_cons.mp hpm with rfl | hpm
          · norm_num
          rcases List.mem_append.mp hpm with hma | hpm
          · have := hab.1 p hma
            constructor <;> linarith [this.1, this.2]
          rcases List.mem_cons.mp hpm with rfl | hpm
          · norm_num
          rcases List.mem_append.mp hpm with hmc | hpm
          · have := hcb.1 p hmc
            constructor <;> linarith [this.1, this.2]
          rcases List.mem_singleton.mp hpm with rfl
          norm_num
        cases w with
        | setProgress p => exact hp p rfl
        | setStatus st => simpa [applyWrite] using ht
        | setMessage m => simpa [applyWrite] using ht
        | setListings ls => simpa [applyWrite] using ht
        | setEvaluated ls => simpa [applyWrite] using ht
        | setArgued ls => simpa [applyWrite] using ht
        | setFinalReports rs => simpa [applyWrite] using ht

theorem length_filterMap_eq_countP {α β : Type} (f : α → Option β) :
    ∀ l : List α, (l.filterMap f).length = l.countP (fun a => (f a).isSome) := by
  intro l
  induction l with
  | nil => rfl
  | cons x xs ih =>
    cases hx : f x with
    | none =>
      rw [List.filterMap_cons_none hx, List.countP_cons_of_neg _ _ (by simp [hx])]
      exact ih
    | some b =>
      rw [List.filterMap_cons_some hx, List.countP_cons_of_pos _ _ (by simp [hx])]
      simp only [List.length_cons, ih]

theorem finalSessionState_complete
    (prefs : UserPreferences) (scraper_results : List (Except String (List Listing)))
    (evalO : Listing → Option EvaluationReport)
    (argO : Listing → EvaluationReport → Option ArgumentReport)
    (compO : Listing → EvaluationReport → ArgumentReport → Option FinalReport) :
    finalSessionState (some (some prefs)) scraper_results evalO argO compO
      = { status := .complete, message := "Analysis complete", progress := 100,
          listings := searchAllPlatforms scraper_results,
          evaluated_listings := evaluateStage evalO (searchAllPlatforms scraper_results),
          argued_listings := argueStage argO
            (evaluateStage evalO (searchAllPlatforms scraper_results)),
          final_reports := (compileStage compO (argueStage argO
            (evaluateStage evalO (searchAllPlatforms scraper_results)))).mergeSort
              finalScoreDescLe } := by
  simp only [finalSessionState, runSearchPipelineWrites, List.foldl_append,
    List.foldl_cons, List.foldl_nil, applyWrite, foldl_progressMap]

theorem stageChain_length
    (evalO : Listing → Option EvaluationReport)
    (argO : Listing → EvaluationReport → Option ArgumentReport)
    (compO : Listing → EvaluationReport → ArgumentReport → Option FinalReport)
    (L : List Listing) :
    (compileStage compO (argueStage argO (evaluateStage evalO L))).length
      = L.countP (fun l => ((evalO l).bind (fun e => (argO l e).bind
          (fun a => compO l e a))).isSome) := by
  rw [compileStage, argueStage, evaluateStage, List.filterMap_filterMap,
    List.filterMap_filterMap, length_filterMap_eq_countP]
  apply List.countP_congr
  intro l _
  cases evalO l with
  | none => rfl
  | some e =>
    cases ha : argO l e with
    | none => simp [ha]
    | some a =>
      cases hc : compO l e a with
      | none => simp [ha, hc]
      | some fr => simp [ha, hc]

theorem foldl_collect_errors :
    ∀ (results : List (Except String (List Listing))),
      (∀ r ∈ results, ∃ msg, r = Except.error msg) →
      ∀ acc : List Listing,
        results.foldl
          (fun acc r =>
            match r with
            | .ok ls => acc ++ ls
            | .error _ => acc) acc = acc := by
  intro results
  induction results with
  | nil => intro _ acc; rfl
  | cons r rest ih =>
    intro hall acc
    rcases hall r (List.mem_cons_self _ _) with ⟨msg, rfl⟩
    simp only [List.foldl_cons]
    exact ih (fun r' hr' => hall r' (List.mem_cons_of_mem _ hr')) acc

theorem filterMap_eq_nil_of_none {α β : Type} (f : α → Option β) :
    ∀ l : List α, (∀ a ∈ l, f a = none) → l.filterMap f = [] := by
  intro l
  induction l with
  | nil => intro _; rfl
  | cons x xs ih =>
    intro hall
    rw [List.filterMap_cons_none (hall x (List.mem_cons_self _ _))]
    exact ih (fun a ha => hall a (List.mem_cons_of_mem _ ha))

/-- C4: per-item enrichment failure never prevents completion — with 5
deduplicated listings and exactly one evaluator failure (arguer and
compiler total), the session completes with exactly 4 final reports; and
whenever every adapter fails, or every listing is dropped at one of the
three enrichment stages, the session still completes, with an empty final
report collection rather than an error. -/
theorem per_item_failure_isolation
    (prefs : UserPreferences) (scraper_results : List (Except String (List Listing)))
    (evalO : Listing → Option EvaluationReport)
    (argO : Listing → EvaluationReport → Option ArgumentReport)
    (compO : Listing → EvaluationReport → ArgumentReport → Option FinalReport)
    (h5 : (searchAllPlatforms scraper_results).length = 5)
    (h1 : (searchAllPlatforms scraper_results).countP (fun l => (evalO l).isNone) = 1)
    (hargs : ∀ l e, argO l e ≠ none)
    (hcomp : ∀ l e a, compO l e a ≠ none) :
    ((finalSessionState (some (some prefs)) scraper_results evalO argO compO).status
        = .complete
      ∧ (finalSessionState (some (some prefs)) scraper_results
          evalO argO compO).final_reports.length = 4)
    ∧ (∀ (scr₂ : List (Except String (List Listing)))
        (evalO₂ : Listing → Option EvaluationReport)
        (argO₂ : Listing → EvaluationReport → Option ArgumentReport)
        (compO₂ : Listing → EvaluationReport → ArgumentReport → Option FinalReport),
        ((∀ r ∈ scr₂, ∃ msg, r = Except.error msg)
          ∨ (∀ l ∈ searchAllPlatforms scr₂, evalO₂ l = none)
          ∨ (∀ le ∈ evaluateStage evalO₂ (searchAllPlatforms scr₂), argO₂ le.1 le.2 = none)
          ∨ (∀ lea ∈ argueStage argO₂ (evaluateStage evalO₂ (searchAllPlatforms scr₂)),
              compO₂ lea.1 lea.2.1 lea.2.2 = none)) →
        ((finalSessionState (some (some prefs)) scr₂ evalO₂ argO₂ compO₂).status = .complete
          ∧ (finalSessionState (some (some prefs)) scr₂ evalO₂ argO₂ compO₂).final_reports
              = [])) := by
  constructor
  · rw [finalSessionState_complete]
    refine ⟨rfl, ?_⟩
    show ((compileStage compO (argueStage argO (evaluateStage evalO
      (searchAllPlatforms scraper_results)))).mergeSort finalScoreDescLe).length = 4
    rw [(List.mergeSort_perm _ _).length_eq, stageChain_length]
    have hsame : (searchAllPlatforms scraper_results).countP
        (fun l => ((evalO l).bind (fun e => (argO l e).bind (fun a => compO l e a))).isSome)
        = (searchAllPlatforms scraper_results).countP (fun l => (evalO l).isSome) := by
      apply List.countP_congr
      intro l _
      cases he : evalO l with
      | none => rfl
      | some e =>
        cases ha : argO l e with
        | none => exact absurd ha (hargs l e)
        | some a =>
          cases hc : compO l e a with
          | none => exact absurd hc (hcomp l e a)
          | some fr => simp [ha, hc]
    rw [hsame]
    have hsplit := List.length_eq_countP_add_countP (fun l => (evalO l).isNone)
      (l := searchAllPlatforms scraper_results)
    have hnot : (searchAllPlatforms scraper_results).countP
        (fun a => decide ¬((evalO a).isNone = true))
        = (searchAllPlatforms scraper_results).countP (fun l => (evalO l).isSome) := by
      apply List.countP_congr
      intro l _
      cases evalO l <;> simp
    rw [h5, h1, hnot] at hsplit
    omega
  · intro scr₂ evalO₂ argO₂ compO₂ hfail
    rw [finalSessionState_complete]
    refine ⟨rfl, ?_⟩
    show ((compileStage compO₂ (argueStage argO₂ (evaluateStage evalO₂
      (searchAllPlatforms scr₂)))).mergeSort finalScoreDescLe) = []
    have hnil : compileStage compO₂ (argueStage argO₂ (evaluateStage evalO₂
        (searchAllPlatforms scr₂))) = [] := by
      rcases hfail with hf | hf | hf | hf
      · have : searchAllPlatforms scr₂ = [] := by
          rw [searchAllPlatforms, foldl_collect_errors scr₂ hf]
          rfl
        rw [this]
        rfl
      · have : evaluateStage evalO₂ (searchAllPlatforms scr₂) = [] := by
          rw [evaluateStage]
          exact filterMap_eq_nil_of_none _ _ (fun l hl => by rw [hf l hl]; rfl)
        rw [this]
        rfl
      · have : argueStage argO₂ (evaluateStage evalO₂ (searchAllPlatforms scr₂)) = [] := by
          rw [argueStage]
          exact filterMap_eq_nil_of_none _ _ (fun le hle => by rw [hf le hle]; rfl)
        rw [this]
        rfl
      · rw [compileStage]
        exact filterMap_eq_nil_of_none _ _ (fun lea hlea => hf lea hlea)
    rw [hnil]
    simp [List.mergeSort_nil]

/-- Witness for C4 at concrete inputs: one adapter returning 5 listings,
the evaluator failing exactly on listing "3", arguer and compiler total. -/
theorem per_item_failure_isolation_witness :
    ((searchAllPlatforms fiveListingResults).length = 5
      ∧ (searchAllPlatforms fiveListingResults).countP
          (fun l => (failOn3EvalOracle l).isNone) = 1
      ∧ (∀ (l : Listing) (e : EvaluationReport), okArgOracle l e ≠ none)
      ∧ (∀ (l : Listing) (e : EvaluationReport) (a : ArgumentReport),
          okCompOracle l e a ≠ none))
    ∧ (((finalSessionState (some (some {})) fiveListingResults failOn3EvalOracle
          okArgOracle okCompOracle).status = .complete
        ∧ (finalSessionState (some (some {})) fiveListingResults failOn3EvalOracle
            okArgOracle okCompOracle).final_reports.length = 4)
      ∧ (∀ (scr₂ : List (Except String (List Listing)))
          (evalO₂ : Listing → Option EvaluationReport)
          (argO₂ : Listing → EvaluationReport → Option ArgumentReport)
          (compO₂ : Listing → EvaluationReport → ArgumentReport → Option FinalReport),
          ((∀ r ∈ scr₂, ∃ msg, r = Except.error msg)
            ∨ (∀ l ∈ searchAllPlatforms scr₂, evalO₂ l = none)
            ∨ (∀ le ∈ evaluateStage evalO₂ (searchAllPlatforms scr₂),
                argO₂ le.1 le.2 = none)
            ∨ (∀ lea ∈ argueStage argO₂ (evaluateStage evalO₂ (searchAllPlatforms scr₂)),
                compO₂ lea.1 lea.2.1 lea.2.2 = none)) →
          ((finalSessionState (some (some {})) scr₂ evalO₂ argO₂ compO₂).status = .complete
            ∧ (finalSessionState (some (some {})) scr₂ evalO₂ argO₂ compO₂).final_reports
                = []))) :=
  ⟨⟨by decide, by decide,
      fun l e => by simp [okArgOracle], fun l e a => by simp [okCompOracle]⟩,
    per_item_failure_isolation {} fiveListingResults failOn3EvalOracle okArgOracle
      okCompOracle (by decide) (by decide)
      (fun l e => by simp [okArgOracle]) (fun l e a => by simp [okCompOracle])⟩

theorem scanl_no_listings_writes (ws : List SessionWrite)
    (hws : ∀ w ∈ ws, ∀ s : SearchSession, (applyWrite s w).listings = s.listings) :
    ∀ (s t : SearchSession), t ∈ ws.scanl applyWrite s → t.listings = s.listings := by
  induction ws with
  | nil =>
    intro s t ht
    simp only [List.scanl] at ht
    rcases List.mem_singleton.mp ht with rfl
    rfl
  | cons w ws' ih =>
    intro s t ht
    simp only [List.scanl] at ht
    rcases List.mem_cons.mp ht with rfl | ht
    · rfl
    · rw [ih (fun w' hw' => hws w' (List.mem_cons_of_mem _ hw')) (applyWrite s w) t ht]
      exact hws w (List.mem_cons_self _ _) s

theorem foldl_no_listings_writes (ws : List SessionWrite)
    (hws : ∀ w ∈ ws, ∀ s : SearchSession, (applyWrite s w).listings = s.listings) :
    ∀ s : SearchSession, (ws.foldl applyWrite s).listings = s.listings := by
  induction ws with
  | nil => intro s; rfl
  | cons w ws' ih =>
    intro s
    simp only [List.foldl_cons]
    rw [ih (fun w' hw' => hws w' (List.mem_cons_of_mem _ hw'))]
    exact hws w (List.mem_cons_self _ _) s

/-- C2 (amended): the pipeline stores the collector's listings into the
session only at completion; every observable state that is not yet
`complete` reports `listingsFound = 0` (the initializer's empty list), and
only the final, `complete` state reports `listingsFound` equal to the
deduplicated collector count.  The status view itself is a pure projection
of the stored session fields. -/
theorem status_projection_listings_found
    (prefs : UserPreferences) (scraper_results : List (Except String (List Listing)))
    (evalO : Listing → Option EvaluationReport)
    (argO : Listing → EvaluationReport → Option ArgumentReport)
    (compO : Listing → EvaluationReport → ArgumentReport → Option FinalReport) :
    (∀ t ∈ runSearchPipelineStates (some (some prefs)) scraper_results evalO argO compO,
        t.status ≠ .complete → (getSearchStatus t).listings_found = 0)
    ∧ (getSearchStatus (finalSessionState (some (some prefs)) scraper_results
        evalO argO compO)).status = .complete
    ∧ (getSearchStatus (finalSessionState (some (some prefs)) scraper_results
        evalO argO compO)).listings_found = (searchAllPlatforms scraper_results).length
    ∧ (∀ s : SearchSession, getSearchStatus s
        = ⟨s.status, s.progress, s.message, s.listings.length,
            s.evaluated_listings.length⟩) := by
  refine ⟨?_, ?_, ?_, fun s => rfl⟩
  · have hdisj : ∀ t ∈ runSearchPipelineStates (some (some prefs)) scraper_results
        evalO argO compO, t.listings = [] ∨ t.status = .complete := by
      intro t ht
      rw [runSearchPipelineStates, runSearchPipelineWrites] at ht
      rcases mem_scanl_append _ _ _ _ _ ht with h | h
      · refine Or.inl ?_
        rw [scanl_no_listings_writes _ ?_ _ t h]
        · rfl
        · intro w hw s
          cases w with
          | setStatus st => rfl
          | setMessage m => rfl
          | setProgress p => rfl
          | setEvaluated ls => rfl
          | setArgued ls => rfl
          | setFinalReports rs => rfl
          | setListings ls => simp at hw
      · simp only [List.scanl, List.mem_cons, List.not_mem_nil, or_false] at h
        rcases h with rfl | rfl | rfl | rfl | rfl | rfl | rfl | rfl
        · refine Or.inl ?_
          rw [foldl_no_listings_writes _ ?_ _]
          · rfl
          · intro w hw s
            cases w with
            | setStatus st => rfl
            | setMessage m => rfl
            | setProgress p => rfl
            | setEvaluated ls => rfl
            | setArgued ls => rfl
            | setFinalReports rs => rfl
            | setListings ls => simp at hw
        all_goals exact Or.inr rfl
    intro t ht hne
    rcases hdisj t ht with he | hc
    · simp [getSearchStatus, he]
    · exact absurd hc hne
  · rw [finalSessionState_complete]
    rfl
  · rw [finalSessionState_complete]
    rfl

/-- C2 (counterexample): in a concrete run whose collector returns one
listing, there is an observable state with status `evaluating` whose
projection reports `listingsFound = 0`, not the collector's count `1`. -/
theorem status_read_listings_found_counterexample :
    ¬ (∀ t ∈ runSearchPipelineStates (some (some ({} : UserPreferences)))
          oneListingResults okEvalOracle okArgOracle okCompOracle,
        t.status = .evaluating →
          (getSearchStatus t).listings_found
            = (searchAllPlatforms oneListingResults).length) := by
  decide

/-! ### Weight learning: correlation analysis (claim C7) -/

theorem popVariance_nonneg (xs : List ℝ) : 0 ≤ popVariance xs := by
  apply div_nonneg
  · apply List.sum_nonneg
    intro x hx
    rcases List.mem_map.mp hx with ⟨y, _, rfl⟩
    positivity
  · positivity

theorem sqrt_popVariance_eq_zero_iff (xs : List ℝ) :
    Real.sqrt (popVariance xs) = 0 ↔ popVariance xs = 0 := by
  rw [Real.sqrt_eq_zero']
  constructor
  · intro h
    exact le_antisymm h (popVariance_nonneg xs)
  · intro h
    exact le_of_eq h

theorem zip_self_map (f : ℝ → ℝ → ℝ) :
    ∀ xs : List ℝ, (xs.zip xs).map (fun q => f q.1 q.2) = xs.map (fun x => f x x) := by
  intro xs
  induction xs with
  | nil => rfl
  | cons x t ih => simp [List.zip_cons_cons, ih]

theorem sampleCov_self_eq (xs : List ℝ) :
    sampleCov xs xs
      = ((xs.map (fun x => (x - meanR xs) ^ 2)).sum) / ((xs.length : ℝ) - 1) := by
  rw [sampleCov, zip_self_map (fun a b => (a - meanR xs) * (b - meanR xs))]
  congr 1
  refine congrArg List.sum ?_
  apply List.map_congr_left
  intro x _
  ring

theorem corr_normalization (S Q1 Q2 c : ℝ) (h1 : 0 ≤ Q1) (h2 : 0 ≤ Q2) (hc : 0 < c) :
    (S / c) / (Real.sqrt (Q1 / c) * Real.sqrt (Q2 / c))
      = S / (Real.sqrt Q1 * Real.sqrt Q2) := by
  rw [Real.sqrt_div h1, Real.sqrt_div h2, div_mul_div_comm,
    Real.mul_self_sqrt (le_of_lt hc)]
  rcases eq_or_ne (Real.sqrt Q1 * Real.sqrt Q2) 0 with hz | hz
  · rw [hz]
    simp
  · have hc' : c ≠ 0 := ne_of_gt hc
    field_simp

theorem calcFeatureWeight_eq_pearson (xs ys : List ℝ)
    (hlen : ys.length = xs.length) (h2 : 2 ≤ xs.length) :
    calcFeatureWeight xs ys = pearsonWeightSpec xs ys := by
  have hc2 : (2 : ℝ) ≤ (xs.length : ℝ) := by exact_mod_cast h2
  have hn : (0 : ℝ) < (xs.length : ℝ) := by linarith
  have hn1 : (0 : ℝ) < (xs.length : ℝ) - 1 := by linarith
  have hQxx0 : 0 ≤ (xs.map (fun x => (x - meanR xs) ^ 2)).sum := by
    apply List.sum_nonneg
    intro v hv
    rcases List.mem_map.mp hv with ⟨x, _, rfl⟩
    positivity
  have hQyy0 : 0 ≤ (ys.map (fun y => (y - meanR ys) ^ 2)).sum := by
    apply List.sum_nonneg
    intro v hv
    rcases List.mem_map.mp hv with ⟨y, _, rfl⟩
    positivity
  have hvx : popVariance xs
      = (xs.map (fun x => (x - meanR xs) ^ 2)).sum / (xs.length : ℝ) := rfl
  have hvy : popVariance ys
      = (ys.map (fun y => (y - meanR ys) ^ 2)).sum / (xs.length : ℝ) := by
    rw [popVariance, hlen]
  have hsx : sampleCov xs xs
      = (xs.map (fun x => (x - meanR xs) ^ 2)).sum / ((xs.length : ℝ) - 1) :=
    sampleCov_self_eq xs
  have hsy : sampleCov ys ys
      = (ys.map (fun y => (y - meanR ys) ^ 2)).sum / ((xs.length : ℝ) - 1) := by
    rw [sampleCov_self_eq ys, hlen]
  have hyiff : sampleCov ys ys = 0 ↔ popVariance ys = 0 := by
    rw [hsy, hvy, div_eq_zero_iff, div_eq_zero_iff]
    constructor
    · rintro (h | h)
      · exact Or.inl h
      · linarith
    · rintro (h | h)
      · exact Or.inl h
      · linarith
  rw [calcFeatureWeight, pearsonWeightSpec]
  by_cases hx0 : Real.sqrt (popVariance xs) = 0
  · rw [if_pos hx0, if_pos (Or.inl ((sqrt_popVariance_eq_zero_iff xs).mp hx0))]
  · rw [if_neg hx0]
    have hpx0 : popVariance xs ≠ 0 := fun hc => hx0 (by rw [hc, Real.sqrt_zero])
    by_cases hy0 : sampleCov ys ys = 0
    · rw [if_pos hy0, if_pos (Or.inr (hyiff.mp hy0))]
    · rw [if_neg hy0]
      have hpy0 : popVariance ys ≠ 0 := fun hc => hy0 (hyiff.mpr hc)
      rw [if_neg (by push_neg; exact ⟨hpx0, hpy0⟩)]
      have hcov1 : sampleCov xs ys
          = ((xs.zip ys).map (fun q => (q.1 - meanR xs) * (q.2 - meanR ys))).sum
              / ((xs.length : ℝ) - 1) := rfl
      have hcov2 : popCov xs ys
          = ((xs.zip ys).map (fun q => (q.1 - meanR xs) * (q.2 - meanR ys))).sum
              / (xs.length : ℝ) := rfl
      rw [hcov1, hcov2, hsx, hsy, hvx, hvy,
        corr_normalization _ _ _ _ hQxx0 hQyy0 hn1,
        corr_normalization _ _ _ _ hQxx0 hQyy0 hn]

theorem lookup_map_pair {γ : Type} (g : String → γ) :
    ∀ (names : List String) (f : String), f ∈ names →
      (names.map (fun x => (x, g x))).lookup f = some (g f) := by
  intro names
  induction names with
  | nil => intro f hf; simp at hf
  | cons n ns ih =>
    intro f hf
    by_cases hfn : f = n
    · subst hfn
      simp [List.lookup]
    · have hb : (f == n) = false := beq_eq_false_iff_ne.mpr hfn
      simp only [List.map_cons, List.lookup, hb]
      rcases List.mem_cons.mp hf with rfl | hf
      · exact absurd rfl hfn
      · exact ih f hf

/-- C7: with at least 2 recorded events, `_update_preference_weights`
stores — replacing any prior value for the session — a weight map in which
every feature of the (shared) feature schema gets exactly the Pearson
correlation between its values across the events and the ±1 labels, with
zero-variance features and undefined correlations yielding 0 (both folded
into `pearsonWeightSpec`). -/
theorem weight_learning_pearson
    (wstore : KeyedStore (List (String × ℝ))) (session_id : String)
    (e0 : FeedbackEvent) (es : List FeedbackEvent)
    (h2 : 2 ≤ (e0 :: es).length) :
    (updatePreferenceWeights wstore session_id (e0 :: es)).lookup session_id
      = some (calcFeatureWeights ((e0 :: es).map (·.features)) ((e0 :: es).map labelOf))
    ∧ ∀ fname ∈ e0.features.map Prod.fst,
        (calcFeatureWeights ((e0 :: es).map (·.features))
            ((e0 :: es).map labelOf)).lookup fname
          = some (pearsonWeightSpec
              ((e0 :: es).map (fun e => (((e.features.lookup fname).getD 0 : ℚ) : ℝ)))
              ((e0 :: es).map labelOf)) := by
  constructor
  · rw [updatePreferenceWeights, if_neg (by omega)]
    exact lookup_upsertRecord_self _ _ _
  · intro fname hf
    have hcalc : calcFeatureWeights ((e0 :: es).map (·.features)) ((e0 :: es).map labelOf)
        = (e0.features.map Prod.fst).map (fun f =>
            (f, calcFeatureWeight
              (((e0 :: es).map (·.features)).map
                (fun fv => (((fv.lookup f).getD 0 : ℚ) : ℝ)))
              ((e0 :: es).map labelOf))) := rfl
    rw [hcalc, lookup_map_pair _ _ fname hf, List.map_map]
    exact congrArg some (calcFeatureWeight_eq_pearson _ _ (by simp)
      (by simpa using h2))

/-- Witness for C7 at concrete inputs: two events with opposite labels over
a one-feature schema. -/
theorem weight_learning_pearson_witness :
    (2 ≤ ([fbEventA, fbEventB] : List FeedbackEvent).length)
    ∧ ((updatePreferenceWeights [] "s" [fbEventA, fbEventB]).lookup "s"
        = some (calcFeatureWeights
            (([fbEventA, fbEventB] : List FeedbackEvent).map (·.features))
            (([fbEventA, fbEventB] : List FeedbackEvent).map labelOf))
      ∧ ∀ fname ∈ fbEventA.features.map Prod.fst,
          (calcFeatureWeights
              (([fbEventA, fbEventB] : List FeedbackEvent).map (·.features))
              (([fbEventA, fbEventB] : List FeedbackEvent).map labelOf)).lookup fname
            = some (pearsonWeightSpec
                (([fbEventA, fbEventB] : List FeedbackEvent).map
                  (fun e => (((e.features.lookup fname).getD 0 : ℚ) : ℝ)))
                (([fbEventA, fbEventB] : List FeedbackEvent).map labelOf))) :=
  ⟨by decide, weight_learning_pearson [] "s" fbEventA [fbEventB] (by decide)⟩
